import Mathlib

/-!
Verification of the MLS-MPM particle simulation core (mlsMpmSimulator).

The simulation kernels are WGSL compute shaders built through three.js TSL
nodes.  We shallowly embed the numeric content of the kernels over exact
rationals (and over the reals for the sphere-containment dynamics, which use
a Euclidean norm): 32-bit float arithmetic is modelled as exact arithmetic,
the f32-to-i32 conversion used by the fixed-point codec is modelled as
truncation toward zero followed by 32-bit wrap-around, and non-finite float
results (division by zero) are modelled by Option, with none standing for a
non-finite value.
-/

namespace Flow

/-! ## Fixed-point codec (mlsMpmSimulator, fixedPointMultiplier / encodeFixedPoint / decodeFixedPoint)

The source sets fixedPointMultiplier = 1e7.  encodeFixedPoint(f) is
int(f * multiplier): the WGSL value conversion from f32 to i32 truncates
toward zero; the stored accumulator is a 32-bit integer, which we model by
wrapping into the interval from -2^31 to 2^31 - 1.  decodeFixedPoint(i) is
float(i) / multiplier. -/

def fixedPointMultiplier : ℚ := 10000000

/-- WGSL f32-to-i32 conversion: truncation toward zero. -/
def i32trunc (q : ℚ) : ℤ := if 0 ≤ q then ⌊q⌋ else ⌈q⌉

/-- Wrap an unbounded integer into the two's-complement 32-bit range. -/
def wrap32 (n : ℤ) : ℤ := (n + 2 ^ 31) % 2 ^ 32 - 2 ^ 31

def encodeFixedPoint (f : ℚ) : ℤ := wrap32 (i32trunc (f * fixedPointMultiplier))

def decodeFixedPoint (i : ℤ) : ℚ := (i : ℚ) / fixedPointMultiplier

theorem wrap32_eq_self {n : ℤ} (h1 : -2 ^ 31 ≤ n) (h2 : n < 2 ^ 31) : wrap32 n = n := by
  unfold wrap32
  have h0 : 0 ≤ n + 2 ^ 31 := by linarith
  have h3 : n + 2 ^ 31 < 2 ^ 32 := by norm_num at h2 ⊢; linarith
  rw [Int.emod_eq_of_lt h0 h3]
  ring

theorem i32trunc_le_self_of_nonneg {q : ℚ} (h : 0 ≤ q) : (i32trunc q : ℚ) ≤ q := by
  unfold i32trunc
  rw [if_pos h]
  exact Int.floor_le q

theorem self_lt_i32trunc_add_one_of_nonneg {q : ℚ} (h : 0 ≤ q) : q < i32trunc q + 1 := by
  unfold i32trunc
  rw [if_pos h]
  exact Int.lt_floor_add_one q

theorem i32trunc_nonneg {q : ℚ} (h : 0 ≤ q) : 0 ≤ i32trunc q := by
  unfold i32trunc
  rw [if_pos h]
  exact_mod_cast Int.floor_nonneg.mpr h

/-- Truncation toward zero differs from its argument by less than 1. -/
theorem abs_i32trunc_sub_lt_one (q : ℚ) : |(i32trunc q : ℚ) - q| < 1 := by
  unfold i32trunc
  by_cases h : 0 ≤ q
  · rw [if_pos h, abs_lt]
    constructor
    · have := Int.lt_floor_add_one q
      linarith
    · have := Int.floor_le q
      linarith
  · rw [if_neg h, abs_lt]
    constructor
    · have := Int.le_ceil q
      linarith
    · have := Int.ceil_lt_add_one q
      linarith

/-- Truncation toward zero never increases the magnitude. -/
theorem abs_i32trunc_le_abs (q : ℚ) : |(i32trunc q : ℚ)| ≤ |q| := by
  unfold i32trunc
  by_cases h : 0 ≤ q
  · rw [if_pos h]
    have h0 : (0 : ℚ) ≤ ⌊q⌋ := by exact_mod_cast Int.floor_nonneg.mpr h
    rw [abs_of_nonneg h0, abs_of_nonneg h]
    exact Int.floor_le q
  · rw [if_neg h]
    push_neg at h
    have hc : (⌈q⌉ : ℚ) ≤ 0 := by
      have : ⌈q⌉ ≤ (0 : ℤ) := Int.ceil_le.mpr (by exact_mod_cast h.le)
      exact_mod_cast this
    rw [abs_of_nonpos hc, abs_of_nonpos h.le]
    have := Int.le_ceil q
    linarith

/-! ## Quadratic B-spline stencil weights (kernels p2g1 / p2g2 / g2p)

Every kernel recomputes the same per-axis weights from
cellDiff = fract(position) - 0.5. -/

/-- Per-axis offset d of a coordinate inside its cell, fract(x) - 0.5. -/
def cellDiff1 (x : ℚ) : ℚ := Int.fract x - 1 / 2

def w0 (d : ℚ) : ℚ := 1 / 2 * (1 / 2 - d) * (1 / 2 - d)

def w1 (d : ℚ) : ℚ := 3 / 4 - d * d

def w2 (d : ℚ) : ℚ := 1 / 2 * (1 / 2 + d) * (1 / 2 + d)

/-- The weights array of the scatter kernels, indexed per axis by 0, 1, 2. -/
def weightAt (g : Fin 3) (d : ℚ) : ℚ :=
  match g with
  | 0 => w0 d
  | 1 => w1 d
  | 2 => w2 d

/-- Grid-space particle position (exact model of a vec3 of f32). -/
structure Vec3q where
  x : ℚ
  y : ℚ
  z : ℚ
deriving DecidableEq

/-- The vector cellDiff of p2g1: fract(position) - 0.5, per axis. -/
def cellDiff (p : Vec3q) : Vec3q :=
  ⟨cellDiff1 p.x, cellDiff1 p.y, cellDiff1 p.z⟩

/-- Mass contribution scattered by p2g1 to the stencil neighbor (gx, gy, gz):
the tensor-product weight (the kernel assumes particle mass 1.0). -/
def massContrib (cd : Vec3q) (gx gy gz : Fin 3) : ℚ :=
  weightAt gx cd.x * weightAt gy cd.y * weightAt gz cd.z

theorem cellDiff1_mem (x : ℚ) : -(1 / 2) ≤ cellDiff1 x ∧ cellDiff1 x < 1 / 2 := by
  unfold cellDiff1
  constructor
  · have := Int.fract_nonneg x
    linarith
  · have := Int.fract_lt_one x
    linarith

theorem weightAt_nonneg (g : Fin 3) {d : ℚ} (h1 : -(1 / 2) ≤ d) (h2 : d < 1 / 2) :
    0 ≤ weightAt g d := by
  fin_cases g <;> simp only [weightAt, w0, w1, w2] <;> nlinarith

theorem weightAt_le_one (g : Fin 3) {d : ℚ} (h1 : -(1 / 2) ≤ d) (h2 : d < 1 / 2) :
    weightAt g d ≤ 1 := by
  fin_cases g <;> simp only [weightAt, w0, w1, w2] <;> nlinarith

theorem weightAt_sum (d : ℚ) : w0 d + w1 d + w2 d = 1 := by
  unfold w0 w1 w2; ring

theorem weightAt_zero (d : ℚ) : weightAt 0 d = w0 d := rfl

theorem weightAt_one (d : ℚ) : weightAt 1 d = w1 d := rfl

theorem weightAt_two (d : ℚ) : weightAt 2 d = w2 d := rfl

/-- C1: the per-axis quadratic B-spline weights of the Scatter-1 pass
(w0 = 0.5*(0.5-d)^2, w1 = 0.75-d^2, w2 = 0.5*(0.5+d)^2 at d = fract(coord) - 0.5)
sum to 1 on each axis, and the 27 tensor-product mass contributions scattered
over the 3x3x3 stencil sum to exactly 1 in exact arithmetic, for every particle
position. -/
theorem c1_stencil_mass_conservation (p : Vec3q) :
    (w0 (cellDiff p).x + w1 (cellDiff p).x + w2 (cellDiff p).x = 1) ∧
    (w0 (cellDiff p).y + w1 (cellDiff p).y + w2 (cellDiff p).y = 1) ∧
    (w0 (cellDiff p).z + w1 (cellDiff p).z + w2 (cellDiff p).z = 1) ∧
    ∑ gx : Fin 3, ∑ gy : Fin 3, ∑ gz : Fin 3, massContrib (cellDiff p) gx gy gz = 1 := by
  refine ⟨weightAt_sum _, weightAt_sum _, weightAt_sum _, ?_⟩
  simp only [Fin.sum_univ_three, massContrib, weightAt_zero, weightAt_one, weightAt_two]
  unfold w0 w1 w2
  ring

/-- C2: for f in the range from -50 to 50, decoding the fixed-point encoding
of f returns a value within 1e-6 of f (the truncation error is in fact below
1e-7, and f * 1e7 stays well inside the 32-bit integer range). -/
theorem c2_fixed_point_roundtrip (f : ℚ) (h1 : -50 ≤ f) (h2 : f ≤ 50) :
    |decodeFixedPoint (encodeFixedPoint f) - f| ≤ 1 / 1000000 := by
  have hqabs : |f * fixedPointMultiplier| ≤ 500000000 := by
    unfold fixedPointMultiplier
    rw [abs_le]
    constructor <;> nlinarith
  have htr : |(i32trunc (f * fixedPointMultiplier) : ℚ)| ≤ 500000000 :=
    le_trans (abs_i32trunc_le_abs _) hqabs
  rw [abs_le] at htr
  have hlow : -2 ^ 31 ≤ i32trunc (f * fixedPointMultiplier) := by
    have : (-500000000 : ℚ) ≤ (i32trunc (f * fixedPointMultiplier) : ℚ) := htr.1
    have h' : (-500000000 : ℤ) ≤ i32trunc (f * fixedPointMultiplier) := by exact_mod_cast this
    omega
  have hhigh : i32trunc (f * fixedPointMultiplier) < 2 ^ 31 := by
    have : (i32trunc (f * fixedPointMultiplier) : ℚ) ≤ 500000000 := htr.2
    have h' : i32trunc (f * fixedPointMultiplier) ≤ (500000000 : ℤ) := by exact_mod_cast this
    omega
  unfold encodeFixedPoint
  rw [wrap32_eq_self hlow hhigh]
  unfold decodeFixedPoint
  have herr := abs_i32trunc_sub_lt_one (f * fixedPointMultiplier)
  have hM : fixedPointMultiplier = 10000000 := rfl
  rw [hM] at herr ⊢
  have key : (i32trunc (f * 10000000) : ℚ) / 10000000 - f =
      ((i32trunc (f * 10000000) : ℚ) - f * 10000000) / 10000000 := by ring
  rw [key, abs_div]
  rw [abs_of_pos (by norm_num : (0 : ℚ) < 10000000)]
  rw [div_le_iff₀ (by norm_num : (0 : ℚ) < 10000000)]
  linarith

theorem c2_fixed_point_roundtrip_witness :
    (-50 ≤ (7 / 3 : ℚ)) ∧ ((7 / 3 : ℚ) ≤ 50) ∧
    |decodeFixedPoint (encodeFixedPoint (7 / 3)) - 7 / 3| ≤ 1 / 1000000 :=
  ⟨by norm_num, by norm_num,
    c2_fixed_point_roundtrip (7 / 3) (by norm_num) (by norm_num)⟩

/-- C6 counterexample: the encoder truncates toward zero instead of rounding to
the nearest integer.  At f = 3/50000000 we have f * 1e7 = 0.6, whose nearest
integer is 1, but the encoder produces 0. -/
theorem c6_encoder_not_round :
    encodeFixedPoint (3 / 50000000) = 0 ∧
    round ((3 / 50000000 : ℚ) * fixedPointMultiplier) = 1 ∧
    encodeFixedPoint (3 / 50000000) ≠ round ((3 / 50000000 : ℚ) * fixedPointMultiplier) := by
  have harg : (3 / 50000000 : ℚ) * fixedPointMultiplier = 3 / 5 := by
    norm_num [fixedPointMultiplier]
  have henc : encodeFixedPoint (3 / 50000000) = 0 := by
    unfold encodeFixedPoint i32trunc
    rw [harg, if_pos (by norm_num : (0 : ℚ) ≤ 3 / 5)]
    have hfl : ⌊(3 / 5 : ℚ)⌋ = 0 := by norm_num
    rw [hfl]
    unfold wrap32
    decide
  have hrnd : round ((3 / 50000000 : ℚ) * fixedPointMultiplier) = 1 := by
    rw [harg, round_eq]
    norm_num
  refine ⟨henc, hrnd, ?_⟩
  rw [henc, hrnd]
  decide

/-- C6 amended: the fixed-point encoder maps f (in the 32-bit-safe range, here
from -50 to 50) to the integer obtained by truncating f * K toward zero, i.e.
the floor of f * K for nonnegative f and the ceiling for negative f, with
K = 1e7; the decoder maps an integer i to i / K. -/
theorem c6_encoder_truncates (f : ℚ) (h1 : -50 ≤ f) (h2 : f ≤ 50) :
    (0 ≤ f → encodeFixedPoint f = ⌊f * fixedPointMultiplier⌋) ∧
    (f < 0 → encodeFixedPoint f = ⌈f * fixedPointMultiplier⌉) ∧
    ∀ i : ℤ, decodeFixedPoint i = (i : ℚ) / fixedPointMultiplier := by
  have hqabs : |f * fixedPointMultiplier| ≤ 500000000 := by
    unfold fixedPointMultiplier
    rw [abs_le]
    constructor <;> nlinarith
  have htr : |(i32trunc (f * fixedPointMultiplier) : ℚ)| ≤ 500000000 :=
    le_trans (abs_i32trunc_le_abs _) hqabs
  rw [abs_le] at htr
  have hlow : -2 ^ 31 ≤ i32trunc (f * fixedPointMultiplier) := by
    have h' : (-500000000 : ℤ) ≤ i32trunc (f * fixedPointMultiplier) := by exact_mod_cast htr.1
    omega
  have hhigh : i32trunc (f * fixedPointMultiplier) < 2 ^ 31 := by
    have h' : i32trunc (f * fixedPointMultiplier) ≤ (500000000 : ℤ) := by exact_mod_cast htr.2
    omega
  have henc : encodeFixedPoint f = i32trunc (f * fixedPointMultiplier) := by
    unfold encodeFixedPoint
    exact wrap32_eq_self hlow hhigh
  refine ⟨?_, ?_, fun i => rfl⟩
  · intro hf
    rw [henc]
    unfold i32trunc
    rw [if_pos (mul_nonneg hf (by norm_num [fixedPointMultiplier]))]
  · intro hf
    rw [henc]
    unfold i32trunc
    have hneg : ¬(0 ≤ f * fixedPointMultiplier) := by
      have hM : (0 : ℚ) < fixedPointMultiplier := by norm_num [fixedPointMultiplier]
      intro hcontra
      nlinarith
    rw [if_neg hneg]

theorem c6_encoder_truncates_witness :
    (-50 ≤ (-7 / 3 : ℚ)) ∧ ((-7 / 3 : ℚ) ≤ 50) ∧
    ((0 ≤ (-7 / 3 : ℚ) → encodeFixedPoint (-7 / 3) = ⌊(-7 / 3 : ℚ) * fixedPointMultiplier⌋) ∧
     ((-7 / 3 : ℚ) < 0 → encodeFixedPoint (-7 / 3) = ⌈(-7 / 3 : ℚ) * fixedPointMultiplier⌉) ∧
     ∀ i : ℤ, decodeFixedPoint i = (i : ℚ) / fixedPointMultiplier) :=
  ⟨by norm_num, by norm_num,
    c6_encoder_truncates (-7 / 3) (by norm_num) (by norm_num)⟩

/-- The cell accumulators are 32-bit atomic integers: each atomicAdd wraps
into the two's-complement range.  atomicAccum models a cleared accumulator
receiving a sequence of fixed-point contributions (wrapping add is commutative
and associative modulo 2^32, so one interleaving represents them all). -/
def atomicAccum (ms : List ℤ) : ℤ := ms.foldl (fun acc m => wrap32 (acc + m)) 0

theorem wrap32_add_left (a b : ℤ) : wrap32 (wrap32 a + b) = wrap32 (a + b) := by
  unfold wrap32
  omega

theorem atomicAccum_eq_wrap32_sum (ms : List ℤ) : atomicAccum ms = wrap32 ms.sum := by
  have aux : ∀ (l : List ℤ) (a : ℤ),
      l.foldl (fun acc m => wrap32 (acc + m)) (wrap32 a) = wrap32 (a + l.sum) := by
    intro l
    induction l with
    | nil => intro a; simp
    | cons m t ihc =>
      intro a
      simp only [List.foldl_cons, List.sum_cons]
      rw [wrap32_add_left, ihc (a + m), add_assoc]
  have h0 : wrap32 0 = 0 := by decide
  unfold atomicAccum
  have hms := aux ms 0
  rw [h0, zero_add] at hms
  exact hms

/-- C10 counterexample: the cell mass accumulator is a wrapping 32-bit atomic
integer, so it is NOT unconditionally nonnegative.  510 particles placed at
cell-center offsets each contribute their central-cell weight
(3/4)^3 = 27/64, encoded as the nonnegative integer 4218750; accumulating
those 510 nonnegative contributions wraps the accumulator to
-2143404796 < 0, and on that cell the decoded-mass-at-most-0 early return
fires even though the accumulated integer mass is not zero. -/
theorem c10_wrap_overflow_counterexample :
    0 ≤ encodeFixedPoint (massContrib (cellDiff ⟨1 / 2, 1 / 2, 1 / 2⟩) 1 1 1) ∧
    atomicAccum (List.replicate 510
        (encodeFixedPoint (massContrib (cellDiff ⟨1 / 2, 1 / 2, 1 / 2⟩) 1 1 1))) < 0 ∧
    ¬(decodeFixedPoint (atomicAccum (List.replicate 510
          (encodeFixedPoint (massContrib (cellDiff ⟨1 / 2, 1 / 2, 1 / 2⟩) 1 1 1)))) ≤ 0 ↔
        atomicAccum (List.replicate 510
          (encodeFixedPoint (massContrib (cellDiff ⟨1 / 2, 1 / 2, 1 / 2⟩) 1 1 1))) = 0) := by
  have hmc : massContrib (cellDiff ⟨1 / 2, 1 / 2, 1 / 2⟩) 1 1 1 = 27 / 64 := by
    simp only [massContrib, cellDiff, weightAt_one]
    norm_num [cellDiff1, w1, Int.fract]
  have henc : encodeFixedPoint (massContrib (cellDiff ⟨1 / 2, 1 / 2, 1 / 2⟩) 1 1 1) =
      4218750 := by
    rw [hmc]
    unfold encodeFixedPoint i32trunc
    have harg : (27 / 64 : ℚ) * fixedPointMultiplier = 4218750 := by
      norm_num [fixedPointMultiplier]
    rw [harg, if_pos (by norm_num : (0 : ℚ) ≤ 4218750)]
    have hfl : ⌊(4218750 : ℚ)⌋ = 4218750 := by norm_num
    rw [hfl]
    decide
  have hsum : (List.replicate 510
      (encodeFixedPoint (massContrib (cellDiff ⟨1 / 2, 1 / 2, 1 / 2⟩) 1 1 1))).sum =
      510 * 4218750 := by
    rw [henc, List.sum_replicate, nsmul_eq_mul]
    norm_num
  have hacc : atomicAccum (List.replicate 510
      (encodeFixedPoint (massContrib (cellDiff ⟨1 / 2, 1 / 2, 1 / 2⟩) 1 1 1))) =
      -2143404796 := by
    rw [atomicAccum_eq_wrap32_sum, hsum]
    decide
  refine ⟨?_, ?_, ?_⟩
  · rw [henc]
    norm_num
  · rw [hacc]
    norm_num
  · rw [hacc]
    intro hiff
    have hle : decodeFixedPoint (-2143404796) ≤ 0 := by
      unfold decodeFixedPoint fixedPointMultiplier
      norm_num
    have := hiff.mp hle
    norm_num at this

/-- C10 amended: every per-axis weight computed from d = fract(coord) - 0.5 is
nonnegative, hence every fixed-point mass contribution atomically added by
Scatter-1 is a nonnegative integer; provided the total contribution to the
cell stays below 2^31 (no 32-bit overflow - the regime the spec's overflow
budget assumes), the wrapped 32-bit accumulator equals the plain sum, is
nonnegative, and the decoded-mass-at-most-0 early return of GridUpdate fires
exactly when the accumulated integer mass is zero.  Without that bound the
wrapping accumulator can go negative (see the counterexample). -/
theorem c10_mass_accumulator_nonneg_wrapped (p : Vec3q) (gx gy gz : Fin 3) (ms : List ℤ)
    (hms : ∀ m ∈ ms, 0 ≤ m) (hbound : ms.sum < 2 ^ 31) :
    0 ≤ massContrib (cellDiff p) gx gy gz ∧
    0 ≤ encodeFixedPoint (massContrib (cellDiff p) gx gy gz) ∧
    atomicAccum ms = ms.sum ∧
    0 ≤ atomicAccum ms ∧
    (decodeFixedPoint (atomicAccum ms) ≤ 0 ↔ atomicAccum ms = 0) := by
  obtain ⟨hx1, hx2⟩ := cellDiff1_mem p.x
  obtain ⟨hy1, hy2⟩ := cellDiff1_mem p.y
  obtain ⟨hz1, hz2⟩ := cellDiff1_mem p.z
  have hwx := weightAt_nonneg gx hx1 hx2
  have hwy := weightAt_nonneg gy hy1 hy2
  have hwz := weightAt_nonneg gz hz1 hz2
  have hwx1 := weightAt_le_one gx hx1 hx2
  have hwy1 := weightAt_le_one gy hy1 hy2
  have hwz1 := weightAt_le_one gz hz1 hz2
  have hunf : massContrib (cellDiff p) gx gy gz =
      weightAt gx (cellDiff1 p.x) * weightAt gy (cellDiff1 p.y) * weightAt gz (cellDiff1 p.z) :=
    rfl
  have hmc0 : 0 ≤ massContrib (cellDiff p) gx gy gz := by
    rw [hunf]
    exact mul_nonneg (mul_nonneg hwx hwy) hwz
  have hmc1 : massContrib (cellDiff p) gx gy gz ≤ 1 := by
    rw [hunf]
    nlinarith [mul_nonneg hwx hwy, mul_nonneg hwy hwz, mul_nonneg hwx hwz]
  have hsum0 : 0 ≤ ms.sum := List.sum_nonneg hms
  have hacc : atomicAccum ms = ms.sum := by
    rw [atomicAccum_eq_wrap32_sum]
    exact wrap32_eq_self (by omega) hbound
  refine ⟨hmc0, ?_, hacc, ?_, ?_⟩
  · set mc := massContrib (cellDiff p) gx gy gz with hmcdef
    have hq0 : 0 ≤ mc * fixedPointMultiplier :=
      mul_nonneg hmc0 (by norm_num [fixedPointMultiplier])
    have hq1 : mc * fixedPointMultiplier ≤ 10000000 := by
      unfold fixedPointMultiplier
      nlinarith
    have htr0 : 0 ≤ i32trunc (mc * fixedPointMultiplier) := i32trunc_nonneg hq0
    have htr1 : (i32trunc (mc * fixedPointMultiplier) : ℚ) ≤ 10000000 :=
      le_trans (i32trunc_le_self_of_nonneg hq0) hq1
    have htr1' : i32trunc (mc * fixedPointMultiplier) ≤ (10000000 : ℤ) := by exact_mod_cast htr1
    unfold encodeFixedPoint
    rw [wrap32_eq_self (by omega) (by omega)]
    exact htr0
  · rw [hacc]
    exact hsum0
  · rw [hacc]
    unfold decodeFixedPoint fixedPointMultiplier
    constructor
    · intro hle
      have hcast : (ms.sum : ℚ) ≤ 0 := by
        by_contra hpos
        push_neg at hpos
        have : (0 : ℚ) < (ms.sum : ℚ) / 10000000 := by positivity
        linarith
      have : ms.sum ≤ 0 := by exact_mod_cast hcast
      omega
    · intro heq
      rw [heq]
      norm_num

theorem c10_mass_accumulator_nonneg_wrapped_witness :
    (∀ m ∈ [(2 : ℤ), 5], 0 ≤ m) ∧ ([(2 : ℤ), 5]).sum < 2 ^ 31 ∧
    (0 ≤ massContrib (cellDiff ⟨1 / 4, 1 / 2, 3⟩) 0 1 2 ∧
     0 ≤ encodeFixedPoint (massContrib (cellDiff ⟨1 / 4, 1 / 2, 3⟩) 0 1 2) ∧
     atomicAccum [(2 : ℤ), 5] = ([(2 : ℤ), 5]).sum ∧
     0 ≤ atomicAccum [(2 : ℤ), 5] ∧
     (decodeFixedPoint (atomicAccum [(2 : ℤ), 5]) ≤ 0 ↔ atomicAccum [(2 : ℤ), 5] = 0)) :=
  ⟨by decide, by decide,
   c10_mass_accumulator_nonneg_wrapped ⟨1 / 4, 1 / 2, 3⟩ 0 1 2 [2, 5] (by decide) (by decide)⟩

/-! ## Grid clear and resolve (kernels clearGrid / updateGrid)

The grid is fixed at gridSize = (128, 64, 64); a cell index i is decoded by
the updateGrid kernel as x = i / gz / gy, y = i / gz mod gy, z = i mod gz
(matching the cell pointer x * gy * gz + y * gz + z).  clearGrid zeroes both
the fixed-point accumulators and the resolved buffer cellDataF; updateGrid
early-returns when the decoded mass is at most 0 (leaving the cleared value),
otherwise divides momentum by mass and zeroes the velocity component of any
axis whose coordinate is less than 2 or greater than gridSize - 2. -/

def gridSizeX : ℕ := 128

def gridSizeY : ℕ := 64

def gridSizeZ : ℕ := 64

def cellCount : ℕ := gridSizeX * gridSizeY * gridSizeZ

/-- Per-cell fixed-point accumulators: the x, y, z, mass fields of cellData. -/
structure Cell where
  x : ℤ
  y : ℤ
  z : ℤ
  mass : ℤ
deriving DecidableEq

/-- A resolved cellDataF entry: velocity in x, y, z and mass in w. -/
structure Vec4q where
  x : ℚ
  y : ℚ
  z : ℚ
  w : ℚ
deriving DecidableEq

/-- clearGrid assigns 0 to the resolved buffer entry of every cell. -/
def clearedCellF : Vec4q := ⟨0, 0, 0, 0⟩

def coordX (i : ℕ) : ℕ := i / gridSizeZ / gridSizeY

def coordY (i : ℕ) : ℕ := i / gridSizeZ % gridSizeY

def coordZ (i : ℕ) : ℕ := i % gridSizeZ

/-- The updateGrid kernel body for cell i: none models the early return taken
when the decoded mass is at most 0 (before any division); otherwise the
momentum accumulators are divided by the decoded mass and near-boundary
velocity components are zeroed. -/
def updateGridCell (c : Cell) (i : ℕ) : Option Vec4q :=
  let mass := decodeFixedPoint c.mass
  if mass ≤ 0 then none
  else
    let vx0 := decodeFixedPoint c.x / mass
    let vy0 := decodeFixedPoint c.y / mass
    let vz0 := decodeFixedPoint c.z / mass
    let vx := if coordX i < 2 ∨ coordX i > gridSizeX - 2 then 0 else vx0
    let vy := if coordY i < 2 ∨ coordY i > gridSizeY - 2 then 0 else vy0
    let vz := if coordZ i < 2 ∨ coordZ i > gridSizeZ - 2 then 0 else vz0
    some ⟨vx, vy, vz, mass⟩

/-- The resolved cellDataF entry of cell i after a ClearGrid pass followed by
GridUpdate: an early-returning cell keeps its cleared value. -/
def resolvedCellF (c : Cell) (i : ℕ) : Vec4q :=
  (updateGridCell c i).getD clearedCellF

theorem coordX_lt (i : ℕ) (hi : i < cellCount) : coordX i < gridSizeX := by
  unfold coordX cellCount gridSizeX gridSizeY gridSizeZ at *
  omega

theorem coordY_lt (i : ℕ) : coordY i < gridSizeY := by
  unfold coordY gridSizeY gridSizeZ
  omega

theorem coordZ_lt (i : ℕ) : coordZ i < gridSizeZ := by
  unfold coordZ gridSizeZ
  omega

/-- C3: resolving a cell whose decoded accumulated mass is at most 0 performs
no division (the kernel returns before the divide, modelled by none), and
because ClearGrid zeroed the resolved buffer, that cell's resolved velocity is
exactly the zero vector. -/
theorem c3_empty_cell_resolves_to_zero (c : Cell) (i : ℕ)
    (h : decodeFixedPoint c.mass ≤ 0) :
    updateGridCell c i = none ∧
    resolvedCellF c i = clearedCellF ∧
    (resolvedCellF c i).x = 0 ∧ (resolvedCellF c i).y = 0 ∧ (resolvedCellF c i).z = 0 := by
  have hnone : updateGridCell c i = none := by
    unfold updateGridCell
    rw [if_pos h]
  refine ⟨hnone, ?_, ?_, ?_, ?_⟩ <;>
    simp [resolvedCellF, hnone, clearedCellF]

theorem c3_empty_cell_resolves_to_zero_witness :
    (decodeFixedPoint (Cell.mk 5 7 9 0).mass ≤ 0) ∧
    (updateGridCell ⟨5, 7, 9, 0⟩ 3 = none ∧
     resolvedCellF ⟨5, 7, 9, 0⟩ 3 = clearedCellF ∧
     (resolvedCellF ⟨5, 7, 9, 0⟩ 3).x = 0 ∧ (resolvedCellF ⟨5, 7, 9, 0⟩ 3).y = 0 ∧
     (resolvedCellF ⟨5, 7, 9, 0⟩ 3).z = 0) :=
  ⟨by norm_num [decodeFixedPoint, fixedPointMultiplier],
   c3_empty_cell_resolves_to_zero ⟨5, 7, 9, 0⟩ 3
     (by norm_num [decodeFixedPoint, fixedPointMultiplier])⟩

/-- C4: after GridUpdate, every cell whose coordinate on an axis lies within 2
cells of the grid boundary on that axis (closer than 2 to the wall at 0 or to
the wall at gridSize, with gridSize = (128, 64, 64)) has zero resolved
velocity on that axis, for each axis independently and for every possible
accumulator content. -/
theorem c4_boundary_damping (c : Cell) (i : ℕ) (hi : i < cellCount) :
    (coordX i < 2 ∨ gridSizeX - coordX i < 2 → (resolvedCellF c i).x = 0) ∧
    (coordY i < 2 ∨ gridSizeY - coordY i < 2 → (resolvedCellF c i).y = 0) ∧
    (coordZ i < 2 ∨ gridSizeZ - coordZ i < 2 → (resolvedCellF c i).z = 0) := by
  have hx := coordX_lt i hi
  have hy := coordY_lt i
  have hz := coordZ_lt i
  by_cases hm : decodeFixedPoint c.mass ≤ 0
  · have hnone : updateGridCell c i = none := by
      unfold updateGridCell
      rw [if_pos hm]
    refine ⟨fun _ => ?_, fun _ => ?_, fun _ => ?_⟩ <;>
      simp [resolvedCellF, hnone, clearedCellF]
  · refine ⟨fun hbx => ?_, fun hby => ?_, fun hbz => ?_⟩
    · have hcond : coordX i < 2 ∨ coordX i > gridSizeX - 2 := by
        unfold gridSizeX at *
        omega
      simp [resolvedCellF, updateGridCell, hm, hcond]
    · have hcond : coordY i < 2 ∨ coordY i > gridSizeY - 2 := by
        unfold gridSizeY at *
        omega
      simp [resolvedCellF, updateGridCell, hm, hcond]
    · have hcond : coordZ i < 2 ∨ coordZ i > gridSizeZ - 2 := by
        unfold gridSizeZ at *
        omega
      simp [resolvedCellF, updateGridCell, hm, hcond]

theorem c4_boundary_damping_witness :
    (127 * (64 * 64) + 5 * 64 + 9 < cellCount) ∧
    ((coordX (127 * (64 * 64) + 5 * 64 + 9) < 2 ∨
      gridSizeX - coordX (127 * (64 * 64) + 5 * 64 + 9) < 2 →
      (resolvedCellF ⟨33, 44, 55, 66⟩ (127 * (64 * 64) + 5 * 64 + 9)).x = 0) ∧
     (coordY (127 * (64 * 64) + 5 * 64 + 9) < 2 ∨
      gridSizeY - coordY (127 * (64 * 64) + 5 * 64 + 9) < 2 →
      (resolvedCellF ⟨33, 44, 55, 66⟩ (127 * (64 * 64) + 5 * 64 + 9)).y = 0) ∧
     (coordZ (127 * (64 * 64) + 5 * 64 + 9) < 2 ∨
      gridSizeZ - coordZ (127 * (64 * 64) + 5 * 64 + 9) < 2 →
      (resolvedCellF ⟨33, 44, 55, 66⟩ (127 * (64 * 64) + 5 * 64 + 9)).z = 0)) :=
  ⟨by norm_num [cellCount, gridSizeX, gridSizeY, gridSizeZ],
   c4_boundary_damping ⟨33, 44, 55, 66⟩ _
     (by norm_num [cellCount, gridSizeX, gridSizeY, gridSizeZ])⟩

/-! ## Boost easing (g2p, attractor-family modes)

Every attractor-family block of the gather kernel computes, from the uniform
boost time t (the REMAINING boost time, reset to the duration 1.4 s on
activation and counted down to 0 by the host), the quantities
boostProgress = clamp(t / duration, 0, 1),
easedProgress = progress^2 * (3 - 2 * progress),
boostMultiplier = mix(1.0, 20.0, eased) on the containment strength, and
dampingFactor = mix(0.98, 0.7, eased) on the velocity. -/

/-- WGSL clamp(e, lo, hi) = min(max(e, lo), hi). -/
def clampQ (e lo hi : ℚ) : ℚ := min (max e lo) hi

/-- WGSL mix(a, b, t) = a + (b - a) * t. -/
def mixQ (a b t : ℚ) : ℚ := a + (b - a) * t

def boostDuration : ℚ := 14 / 10

def easedProgress (p : ℚ) : ℚ := p * p * (3 - 2 * p)

def boostProgress (t : ℚ) : ℚ := clampQ (t / boostDuration) 0 1

def boostMultiplier (t : ℚ) : ℚ := mixQ 1 20 (easedProgress (boostProgress t))

def dampingFactor (t : ℚ) : ℚ := mixQ (98 / 100) (7 / 10) (easedProgress (boostProgress t))

theorem easedProgress_mono {a b : ℚ} (h0 : 0 ≤ a) (hab : a ≤ b) (h1 : b ≤ 1) :
    easedProgress a ≤ easedProgress b := by
  unfold easedProgress
  nlinarith [mul_nonneg (sub_nonneg.2 hab) (mul_nonneg h0 (sub_nonneg.2 (le_trans hab h1))),
    mul_nonneg (sub_nonneg.2 hab) (mul_nonneg (le_trans h0 hab) (sub_nonneg.2 h1)),
    mul_nonneg (sub_nonneg.2 hab) (sq_nonneg (a - b))]

theorem boostProgress_nonneg (t : ℚ) : 0 ≤ boostProgress t :=
  le_min (le_max_right _ _) zero_le_one

theorem boostProgress_le_one (t : ℚ) : boostProgress t ≤ 1 :=
  min_le_right _ _

theorem boostProgress_mono {t1 t2 : ℚ} (h : t1 ≤ t2) : boostProgress t1 ≤ boostProgress t2 := by
  unfold boostProgress clampQ
  have hd : t1 / boostDuration ≤ t2 / boostDuration := by
    have hpos : (0 : ℚ) < boostDuration := by norm_num [boostDuration]
    exact div_le_div_of_nonneg_right h hpos.le
  exact min_le_min (max_le_max hd le_rfl) le_rfl

/-- C8 counterexample: the strength multiplier is 20.0 at t = duration (the
moment right after activation, when the remaining boost time is full) and 1.0
at t = 0, so along the traversal from t = duration down to t = 0 it is
decreasing, not non-decreasing from 1.0 to 20.0 as claimed. -/
theorem c8_multiplier_direction_counterexample :
    boostMultiplier boostDuration = 20 ∧ boostMultiplier 0 = 1 ∧
    ¬boostMultiplier boostDuration ≤ boostMultiplier 0 := by
  refine ⟨?_, ?_, ?_⟩ <;>
    norm_num [boostMultiplier, mixQ, easedProgress, boostProgress, clampQ, boostDuration]

/-- C8 amended: as the remaining boost time t goes from duration down to 0,
the strength multiplier is monotonically non-increasing from 20.0 to 1.0
(strongest immediately after activation, relaxing over the duration), and the
velocity damping factor is monotonically non-decreasing from 0.7 to 0.98 over
the same interval. -/
theorem c8_boost_easing_monotone (t1 t2 : ℚ) (h0 : 0 ≤ t2) (h12 : t2 ≤ t1)
    (h1 : t1 ≤ boostDuration) :
    (boostMultiplier t2 ≤ boostMultiplier t1 ∧ dampingFactor t1 ≤ dampingFactor t2) ∧
    boostMultiplier boostDuration = 20 ∧ boostMultiplier 0 = 1 ∧
    dampingFactor boostDuration = 7 / 10 ∧ dampingFactor 0 = 98 / 100 := by
  have hbp := boostProgress_mono h12
  have he := easedProgress_mono (boostProgress_nonneg t2) hbp (boostProgress_le_one t1)
  refine ⟨⟨?_, ?_⟩, ?_, ?_, ?_, ?_⟩
  · unfold boostMultiplier mixQ
    linarith
  · unfold dampingFactor mixQ
    linarith
  all_goals
    norm_num [boostMultiplier, dampingFactor, mixQ, easedProgress, boostProgress, clampQ,
      boostDuration]

theorem c8_boost_easing_monotone_witness :
    ((0 : ℚ) ≤ 1 / 2) ∧ ((1 / 2 : ℚ) ≤ 1) ∧ ((1 : ℚ) ≤ boostDuration) ∧
    ((boostMultiplier (1 / 2) ≤ boostMultiplier 1 ∧ dampingFactor 1 ≤ dampingFactor (1 / 2)) ∧
     boostMultiplier boostDuration = 20 ∧ boostMultiplier 0 = 1 ∧
     dampingFactor boostDuration = 7 / 10 ∧ dampingFactor 0 = 98 / 100) :=
  ⟨by norm_num, by norm_num, by norm_num [boostDuration],
   c8_boost_easing_monotone 1 (1 / 2) (by norm_num) (by norm_num) (by norm_num [boostDuration])⟩

/-! ## Edge hiding (g2p, shouldHide / targetX hash)

The gather kernel hides particle i exactly when hidePercentage is greater
than 0 and i / numParticles * 100 is less than hidePercentage; the hash
fract(i * 12.9898) only chooses, for an already-hidden particle, whether the
left or the right edge slab is its target. -/

def shouldHide (numParticles : ℕ) (hidePercentage : ℚ) (i : ℕ) : Prop :=
  0 < hidePercentage ∧ (i : ℚ) / (numParticles : ℚ) * 100 < hidePercentage

instance (N : ℕ) (h : ℚ) : DecidablePred (shouldHide N h) := fun i => by
  unfold shouldHide
  infer_instance

/-- The per-particle hash of the edge-hide block, i * 12.9898 before fract. -/
def edgeHash (i : ℕ) : ℚ := (i : ℚ) * (129898 / 10000)

/-- C9 counterexample: hidden-set membership is not a function of the
particle-index hash.  With numParticles = 10000 and hidePercentage = 25, the
indices 0 and 5000 have identical hash values fract(i * 12.9898), yet particle
0 is hidden and particle 5000 is not: the selection is not made by the hash
(the hash only picks the left or right slab for particles already selected). -/
theorem c9_selection_not_by_hash :
    Int.fract (edgeHash 0) = Int.fract (edgeHash 5000) ∧
    shouldHide 10000 25 0 ∧ ¬shouldHide 10000 25 5000 := by
  refine ⟨?_, ⟨by norm_num, by norm_num⟩, ?_⟩
  · have h0 : edgeHash 0 = 0 := by norm_num [edgeHash]
    have h5 : edgeHash 5000 = 64949 := by norm_num [edgeHash]
    rw [h0, h5]
    rw [Int.fract_eq_self.mpr (by norm_num)]
    have : (64949 : ℚ) = ((64949 : ℤ) : ℚ) := by norm_num
    rw [this, Int.fract_intCast]
  · intro hcontra
    have := hcontra.2
    norm_num at this

/-- C9 amended: when hidePercentage is greater than 0 (and there is at least
one active particle), the set of particles pushed toward the edge slabs is the
deterministic prefix of the particle indices, namely those i with
i / numParticles * 100 below hidePercentage: it is downward closed, and its
size is the configured fraction of the active particles rounded up,
min numParticles (ceiling of numParticles * hidePercentage / 100). -/
theorem c9_hidden_set_prefix_card (N : ℕ) (h : ℚ) (hN : 0 < N) (hh : 0 < h) :
    (∀ i j : ℕ, i ≤ j → shouldHide N h j → shouldHide N h i) ∧
    ((Finset.range N).filter (shouldHide N h)).card =
      min N (⌈(N : ℚ) * h / 100⌉.toNat) := by
  have hNpos : (0 : ℚ) < (N : ℚ) := by exact_mod_cast hN
  have hiff : ∀ i : ℕ, shouldHide N h i ↔ (i : ℚ) < (N : ℚ) * h / 100 := by
    intro i
    unfold shouldHide
    rw [div_mul_eq_mul_div, div_lt_iff₀ hNpos]
    constructor
    · rintro ⟨-, hlt⟩
      linarith
    · intro hlt
      exact ⟨hh, by linarith⟩
  constructor
  · intro i j hij hhide
    rw [hiff] at hhide ⊢
    have : (i : ℚ) ≤ (j : ℚ) := by exact_mod_cast hij
    linarith
  · have hset : (Finset.range N).filter (shouldHide N h) =
        Finset.range (min N (⌈(N : ℚ) * h / 100⌉.toNat)) := by
      ext i
      simp only [Finset.mem_filter, Finset.mem_range, lt_min_iff]
      rw [hiff]
      constructor
      · rintro ⟨hiN, hlt⟩
        have h3 : (i : ℤ) < ⌈(N : ℚ) * h / 100⌉ := Int.lt_ceil.mpr (by exact_mod_cast hlt)
        exact ⟨hiN, by omega⟩
      · rintro ⟨hiN, hlt⟩
        have h3 : (i : ℤ) < ⌈(N : ℚ) * h / 100⌉ := by omega
        exact ⟨hiN, by exact_mod_cast Int.lt_ceil.mp h3⟩
    rw [hset, Finset.card_range]

theorem c9_hidden_set_prefix_card_witness :
    (0 < 10) ∧ ((0 : ℚ) < 30) ∧
    ((∀ i j : ℕ, i ≤ j → shouldHide 10 30 j → shouldHide 10 30 i) ∧
     ((Finset.range 10).filter (shouldHide 10 30)).card =
       min 10 (⌈(10 : ℚ) * 30 / 100⌉.toNat)) :=
  ⟨by norm_num, by norm_num, c9_hidden_set_prefix_card 10 30 (by norm_num) (by norm_num)⟩

/-! ## Scatter-2 stress pass (kernel p2g2)

p2g2 re-gathers the just-scattered fixed-point cell masses through the same
stencil into a local density, then computes volume = 1 / density with no
guard, pressure = max(0, (pow(density / restDensity, 5) - 1) * stiffness),
stress = -pressure * I + dynamicViscosity * (C + transpose C),
eq16Term0 = volume * (-4) * stress * dt, and scatters
momentum = eq16Term0 * weight * cellDist per stencil neighbor.  Division is
modelled in Option: none stands for the non-finite f32 value produced by
1 / 0, and propagates through every later product (IEEE Inf or NaN times
anything is non-finite).  The restDensity parameter is a host-side positive
configuration scalar, so its division is modelled exactly. -/

/-- Column-major 3x3 matrix of rationals, the model of a TSL mat3. -/
structure Mat3q where
  c0 : Vec3q
  c1 : Vec3q
  c2 : Vec3q
deriving DecidableEq

def Vec3q.add (a b : Vec3q) : Vec3q := ⟨a.x + b.x, a.y + b.y, a.z + b.z⟩

def Vec3q.smul (s : ℚ) (a : Vec3q) : Vec3q := ⟨s * a.x, s * a.y, s * a.z⟩

def Mat3q.add (A B : Mat3q) : Mat3q := ⟨A.c0.add B.c0, A.c1.add B.c1, A.c2.add B.c2⟩

def Mat3q.smul (s : ℚ) (A : Mat3q) : Mat3q := ⟨Vec3q.smul s A.c0, Vec3q.smul s A.c1, Vec3q.smul s A.c2⟩

def Mat3q.transpose (A : Mat3q) : Mat3q :=
  ⟨⟨A.c0.x, A.c1.x, A.c2.x⟩, ⟨A.c0.y, A.c1.y, A.c2.y⟩, ⟨A.c0.z, A.c1.z, A.c2.z⟩⟩

def Mat3q.mulVec (A : Mat3q) (v : Vec3q) : Vec3q :=
  (Vec3q.smul v.x A.c0).add ((Vec3q.smul v.y A.c1).add (Vec3q.smul v.z A.c2))

/-- The diagonal mat3(a, 0, 0, 0, a, 0, 0, 0, a). -/
def mat3Diag (a : ℚ) : Mat3q := ⟨⟨a, 0, 0⟩, ⟨0, a, 0⟩, ⟨0, 0, a⟩⟩

/-- getCellPtr: x * gridSize.y * gridSize.z + y * gridSize.z + z. -/
def getCellPtr (x y z : ℤ) : ℤ :=
  x * (gridSizeY : ℤ) * (gridSizeZ : ℤ) + y * (gridSizeZ : ℤ) + z

/-- Pointer of the stencil neighbor (gx, gy, gz) of the base cell
ivec3(position) - 1. -/
def neighborPtr (p : Vec3q) (gx gy gz : Fin 3) : ℤ :=
  getCellPtr (i32trunc p.x - 1 + (gx : ℕ)) (i32trunc p.y - 1 + (gy : ℕ))
    (i32trunc p.z - 1 + (gz : ℕ))

/-- cellDist = vec3(cellX) + 0.5 - particlePosition for stencil neighbor
(gx, gy, gz). -/
def cellDist (p : Vec3q) (gx gy gz : Fin 3) : Vec3q :=
  ⟨(i32trunc p.x - 1 + (gx : ℕ) : ℤ) + 1 / 2 - p.x,
   (i32trunc p.y - 1 + (gy : ℕ) : ℤ) + 1 / 2 - p.y,
   (i32trunc p.z - 1 + (gz : ℕ) : ℤ) + 1 / 2 - p.z⟩

/-- The density re-gathered by p2g2 from the accumulated cell masses. -/
def p2g2Density (grid : ℤ → ℤ) (p : Vec3q) : ℚ :=
  ∑ gx : Fin 3, ∑ gy : Fin 3, ∑ gz : Fin 3,
    decodeFixedPoint (grid (neighborPtr p gx gy gz)) * massContrib (cellDiff p) gx gy gz

/-- The exponential smoothing mix(densityStore, density, 0.05) written back to
the particle. -/
def densityEMA (stored gathered : ℚ) : ℚ := mixQ stored gathered (5 / 100)

/-- volume = float(1) / density, with none modelling the non-finite f32
result of dividing by a zero density (the division is not guarded). -/
def p2g2Volume (grid : ℤ → ℤ) (p : Vec3q) : Option ℚ :=
  if p2g2Density grid p = 0 then none else some (1 / p2g2Density grid p)

def p2g2Pressure (stiffness restDensity d : ℚ) : ℚ :=
  max 0 (((d / restDensity) ^ 5 - 1) * stiffness)

def p2g2Stress (C : Mat3q) (dynamicViscosity pressure : ℚ) : Mat3q :=
  (mat3Diag (-pressure)).add (Mat3q.smul dynamicViscosity (C.add C.transpose))

/-- eq16Term0 = volume * (-4) * stress * dt; non-finite volume makes the whole
matrix non-finite. -/
def eq16Term0 (grid : ℤ → ℤ) (p : Vec3q) (C : Mat3q)
    (dynamicViscosity stiffness restDensity dt : ℚ) : Option Mat3q :=
  (p2g2Volume grid p).map fun vol =>
    Mat3q.smul (vol * (-4) * dt)
      (p2g2Stress C dynamicViscosity (p2g2Pressure stiffness restDensity (p2g2Density grid p)))

/-- The momentum impulse eq16Term0 * weight * cellDist scattered to stencil
neighbor (gx, gy, gz); non-finite if eq16Term0 is. -/
def p2g2Momentum (grid : ℤ → ℤ) (p : Vec3q) (C : Mat3q)
    (dynamicViscosity stiffness restDensity dt : ℚ) (gx gy gz : Fin 3) : Option Vec3q :=
  (eq16Term0 grid p C dynamicViscosity stiffness restDensity dt).map fun m =>
    (Mat3q.smul (massContrib (cellDiff p) gx gy gz) m).mulVec (cellDist p gx gy gz)

/-- C5: the particle-side division by the re-gathered density is NOT guarded.
On a grid whose mass accumulators are all zero the gathered density is 0, the
volume 1 / density is non-finite (none), and the stress impulse scattered to
every stencil neighbor is non-finite (none) rather than zero, for every
particle position, affine matrix and parameter choice.  This contradicts the
spec's error-handling design, which requires a zero density to contribute no
stress impulse rather than propagate non-finite values. -/
theorem c5_density_division_unguarded (p : Vec3q) (C : Mat3q)
    (dynamicViscosity stiffness restDensity dt : ℚ) (gx gy gz : Fin 3) :
    p2g2Density (fun _ => 0) p = 0 ∧
    p2g2Volume (fun _ => 0) p = none ∧
    p2g2Momentum (fun _ => 0) p C dynamicViscosity stiffness restDensity dt gx gy gz = none := by
  have hd : p2g2Density (fun _ => 0) p = 0 := by
    unfold p2g2Density
    simp [decodeFixedPoint]
  have hv : p2g2Volume (fun _ => 0) p = none := by
    unfold p2g2Volume
    rw [if_pos hd]
  refine ⟨hd, hv, ?_⟩
  unfold p2g2Momentum eq16Term0
  rw [hv]
  rfl

/-! ## Sphere containment dynamics (kernel g2p, SphereContainment mode)

The gather kernel in sphere-containment mode adds the one-sided containment
spring (for a particle at distance d > sphereRadius from the sphere center,
velocity += -normalize(p - center) * (d - sphereRadius) * 0.3 * dt), then
integrates position += velocity * dt, clamps position to [2, gridSize - 2],
and applies the predictive wall springs on the look-ahead position
xN = position + velocity * dt * 3 against the margins [3, gridSize - 3] with
wallStiffness 0.3.  The default sphere is centered at (64, 32, 32) with
radius 25, and dt is 0.1 at the nominal frame interval and speed.

The claim's no-competing-forces hypothesis is modelled by taking the other
additive velocity contributions of the kernel to be absent: the curl-noise
term is exactly zero when the noise uniform is 0, the grid-interpolated
velocity is exactly zero when the resolved grid is empty, the cursor force is
skipped when cursorInteraction is off, and the always-on ambient
center-seeking gravity is set aside as a competing force excluded by the
claim. -/

/-- A vec3 of f32 modelled over the reals (the sphere dynamics take Euclidean
norms, so exact rationals do not suffice). -/
structure Vec3R where
  x : ℝ
  y : ℝ
  z : ℝ

noncomputable def Vec3R.add (a b : Vec3R) : Vec3R := ⟨a.x + b.x, a.y + b.y, a.z + b.z⟩

noncomputable def Vec3R.sub (a b : Vec3R) : Vec3R := ⟨a.x - b.x, a.y - b.y, a.z - b.z⟩

noncomputable def Vec3R.smul (s : ℝ) (a : Vec3R) : Vec3R := ⟨s * a.x, s * a.y, s * a.z⟩

/-- WGSL length(): the Euclidean norm. -/
noncomputable def norm3 (v : Vec3R) : ℝ := Real.sqrt (v.x ^ 2 + v.y ^ 2 + v.z ^ 2)

def sphereCenterR : Vec3R := ⟨64, 32, 32⟩

def sphereRadiusR : ℝ := 25

noncomputable def clampR (e lo hi : ℝ) : ℝ := min (max e lo) hi

/-- clamp(particlePosition, vec3(2), gridSize.sub(2)) with gridSize (128,64,64). -/
noncomputable def clamp3 (p : Vec3R) : Vec3R :=
  ⟨clampR p.x 2 126, clampR p.y 2 62, clampR p.z 2 62⟩

/-- One axis of the wall springs: add (bound - xN) * wallStiffness when the
look-ahead coordinate crosses the margin, wallStiffness = 0.3; the
below-minimum check runs before the above-maximum check as in the kernel. -/
noncomputable def wallAxis (xN vx lo hi : ℝ) : ℝ :=
  if xN > hi then
    (if xN < lo then vx + (lo - xN) * (3 / 10) else vx) + (hi - xN) * (3 / 10)
  else
    if xN < lo then vx + (lo - xN) * (3 / 10) else vx

/-- The wall-spring velocity correction of g2p: look-ahead
xN = position + velocity * dt * 3, margins wallMin = vec3(3) and
wallMax = gridSize - 3 = (125, 61, 61). -/
noncomputable def wallAdjust (dt : ℝ) (p v : Vec3R) : Vec3R :=
  ⟨wallAxis (p.add (Vec3R.smul (dt * 3) v)).x v.x 3 125,
   wallAxis (p.add (Vec3R.smul (dt * 3) v)).y v.y 3 61,
   wallAxis (p.add (Vec3R.smul (dt * 3) v)).z v.z 3 61⟩

/-- The sphere-containment spring of g2p (one-sided, active outside the
radius): velocity += normalize(p - c).negate() * ((dist - radius) * 0.3) * dt. -/
noncomputable def sphereContainmentKick (dt : ℝ) (p v : Vec3R) : Vec3R :=
  if norm3 (p.sub sphereCenterR) > sphereRadiusR then
    v.add (Vec3R.smul (((norm3 (p.sub sphereCenterR) - sphereRadiusR) * (3 / 10)) * dt)
      (Vec3R.smul (-(1 / norm3 (p.sub sphereCenterR))) (p.sub sphereCenterR)))
  else v

/-- One g2p step in sphere-containment mode with no competing forces:
containment kick, position integration and clamp, then wall springs computed
from the updated position and the kicked velocity. -/
noncomputable def sphereStep (dt : ℝ) (s : Vec3R × Vec3R) : Vec3R × Vec3R :=
  (clamp3 (s.1.add (Vec3R.smul dt (sphereContainmentKick dt s.1 s.2))),
   wallAdjust dt (clamp3 (s.1.add (Vec3R.smul dt (sphereContainmentKick dt s.1 s.2))))
     (sphereContainmentKick dt s.1 s.2))

/-- Trajectory of a particle placed at rest at p0. -/
noncomputable def sphereTraj (dt : ℝ) (p0 : Vec3R) : ℕ → Vec3R × Vec3R
  | 0 => (p0, ⟨0, 0, 0⟩)
  | n + 1 => sphereStep dt (sphereTraj dt p0 n)

/-- Distance of the particle to the sphere center at step n. -/
noncomputable def distAt (dt : ℝ) (p0 : Vec3R) (n : ℕ) : ℝ :=
  norm3 ((sphereTraj dt p0 n).1.sub sphereCenterR)

/-- Initial distance to the sphere center. -/
noncomputable def startDist (p0 : Vec3R) : ℝ := norm3 (p0.sub sphereCenterR)

/-- The unit direction from the sphere center to the initial position. -/
noncomputable def unitDir (p0 : Vec3R) : Vec3R :=
  Vec3R.smul (1 / startDist p0) (p0.sub sphereCenterR)

/-- Initial positions inside the wall margins of the domain. -/
def goodStart (p0 : Vec3R) : Prop :=
  3 ≤ p0.x ∧ p0.x ≤ 125 ∧ 3 ≤ p0.y ∧ p0.y ≤ 61 ∧ 3 ≤ p0.z ∧ p0.z ≤ 61

theorem Vec3R.ext3 {a b : Vec3R} (hx : a.x = b.x) (hy : a.y = b.y) (hz : a.z = b.z) :
    a = b := by
  cases a; cases b; simp_all

theorem norm3_nonneg (v : Vec3R) : 0 ≤ norm3 v := Real.sqrt_nonneg _

theorem norm3_smul (r : ℝ) (v : Vec3R) : norm3 (Vec3R.smul r v) = |r| * norm3 v := by
  unfold norm3 Vec3R.smul
  dsimp only
  have h : (r * v.x) ^ 2 + (r * v.y) ^ 2 + (r * v.z) ^ 2 =
      r ^ 2 * (v.x ^ 2 + v.y ^ 2 + v.z ^ 2) := by ring
  rw [h, Real.sqrt_mul (sq_nonneg r), Real.sqrt_sq_eq_abs]

theorem norm3_unitDir (p0 : Vec3R) (h : 0 < startDist p0) : norm3 (unitDir p0) = 1 := by
  unfold unitDir
  rw [norm3_smul, abs_of_pos (by positivity : (0 : ℝ) < 1 / startDist p0)]
  unfold startDist at *
  field_simp

theorem ray_sub (r : ℝ) (u : Vec3R) :
    (sphereCenterR.add (Vec3R.smul r u)).sub sphereCenterR = Vec3R.smul r u := by
  apply Vec3R.ext3 <;> simp [Vec3R.add, Vec3R.sub, Vec3R.smul, sphereCenterR]

theorem dist_ray (p0 : Vec3R) (h : 0 < startDist p0) (r : ℝ) (hr : 0 ≤ r) :
    norm3 ((sphereCenterR.add (Vec3R.smul r (unitDir p0))).sub sphereCenterR) = r := by
  rw [ray_sub, norm3_smul, norm3_unitDir p0 h, abs_of_nonneg hr, mul_one]

theorem kick_on_ray (p0 : Vec3R) (h1 : 0 < startDist p0) (r w : ℝ) (hr : 25 < r) :
    sphereContainmentKick (1 / 10) (sphereCenterR.add (Vec3R.smul r (unitDir p0)))
        (Vec3R.smul (-w) (unitDir p0)) =
      Vec3R.smul (-(w + 3 / 100 * (r - 25))) (unitDir p0) := by
  have hd : norm3 ((sphereCenterR.add (Vec3R.smul r (unitDir p0))).sub sphereCenterR) = r :=
    dist_ray p0 h1 r (by linarith)
  have hr0 : r ≠ 0 := by linarith
  unfold sphereContainmentKick
  rw [hd, ray_sub]
  rw [if_pos (show r > sphereRadiusR by unfold sphereRadiusR; exact hr)]
  apply Vec3R.ext3 <;>
    simp only [Vec3R.add, Vec3R.smul, sphereRadiusR] <;>
    field_simp <;>
    ring

theorem clampR_eq_self {e lo hi : ℝ} (h1 : lo ≤ e) (h2 : e ≤ hi) : clampR e lo hi = e := by
  unfold clampR
  rw [max_eq_left h1, min_eq_left h2]

theorem convex_coord_bounds {lo hi a b t : ℝ} (ht0 : 0 ≤ t) (ht1 : t ≤ 1)
    (ha : lo ≤ a) (ha' : a ≤ hi) (hb : lo ≤ b) (hb' : b ≤ hi) :
    lo ≤ a + t * (b - a) ∧ a + t * (b - a) ≤ hi := by
  constructor <;> nlinarith

theorem ray_point_in_walls (p0 : Vec3R) (hg : goodStart p0) (hd : 0 < startDist p0)
    (s : ℝ) (hs0 : 0 ≤ s) (hs1 : s ≤ startDist p0) :
    (3 ≤ (sphereCenterR.add (Vec3R.smul s (unitDir p0))).x ∧
      (sphereCenterR.add (Vec3R.smul s (unitDir p0))).x ≤ 125) ∧
    (3 ≤ (sphereCenterR.add (Vec3R.smul s (unitDir p0))).y ∧
      (sphereCenterR.add (Vec3R.smul s (unitDir p0))).y ≤ 61) ∧
    (3 ≤ (sphereCenterR.add (Vec3R.smul s (unitDir p0))).z ∧
      (sphereCenterR.add (Vec3R.smul s (unitDir p0))).z ≤ 61) := by
  obtain ⟨hx1, hx2, hy1, hy2, hz1, hz2⟩ := hg
  have ht0 : 0 ≤ s / startDist p0 := div_nonneg hs0 hd.le
  have ht1 : s / startDist p0 ≤ 1 := (div_le_one hd).mpr hs1
  have hxeq : (sphereCenterR.add (Vec3R.smul s (unitDir p0))).x =
      64 + (s / startDist p0) * (p0.x - 64) := by
    simp only [Vec3R.add, Vec3R.smul, Vec3R.sub, unitDir, sphereCenterR]
    ring
  have hyeq : (sphereCenterR.add (Vec3R.smul s (unitDir p0))).y =
      32 + (s / startDist p0) * (p0.y - 32) := by
    simp only [Vec3R.add, Vec3R.smul, Vec3R.sub, unitDir, sphereCenterR]
    ring
  have hzeq : (sphereCenterR.add (Vec3R.smul s (unitDir p0))).z =
      32 + (s / startDist p0) * (p0.z - 32) := by
    simp only [Vec3R.add, Vec3R.smul, Vec3R.sub, unitDir, sphereCenterR]
    ring
  rw [hxeq, hyeq, hzeq]
  exact ⟨convex_coord_bounds ht0 ht1 (by norm_num) (by norm_num) hx1 hx2,
    convex_coord_bounds ht0 ht1 (by norm_num) (by norm_num) hy1 hy2,
    convex_coord_bounds ht0 ht1 (by norm_num) (by norm_num) hz1 hz2⟩

theorem clamp3_ray (p0 : Vec3R) (hg : goodStart p0) (hd : 0 < startDist p0)
    (s : ℝ) (hs0 : 0 ≤ s) (hs1 : s ≤ startDist p0) :
    clamp3 (sphereCenterR.add (Vec3R.smul s (unitDir p0))) =
      sphereCenterR.add (Vec3R.smul s (unitDir p0)) := by
  obtain ⟨⟨h1, h2⟩, ⟨h3, h4⟩, ⟨h5, h6⟩⟩ := ray_point_in_walls p0 hg hd s hs0 hs1
  unfold clamp3
  apply Vec3R.ext3 <;> dsimp only <;> rw [clampR_eq_self] <;> linarith

theorem wallAxis_eq_self {xN vx lo hi : ℝ} (h1 : ¬xN < lo) (h2 : ¬xN > hi) :
    wallAxis xN vx lo hi = vx := by
  unfold wallAxis
  rw [if_neg h2, if_neg h1]

theorem wallAdjust_ray (p0 : Vec3R) (hg : goodStart p0) (hd : 0 < startDist p0) (s w : ℝ)
    (h0 : 0 ≤ s - 3 / 10 * w) (h1 : s - 3 / 10 * w ≤ startDist p0) :
    wallAdjust (1 / 10) (sphereCenterR.add (Vec3R.smul s (unitDir p0)))
        (Vec3R.smul (-w) (unitDir p0)) =
      Vec3R.smul (-w) (unitDir p0) := by
  have hxN : (sphereCenterR.add (Vec3R.smul s (unitDir p0))).add
      (Vec3R.smul (1 / 10 * 3) (Vec3R.smul (-w) (unitDir p0))) =
      sphereCenterR.add (Vec3R.smul (s - 3 / 10 * w) (unitDir p0)) := by
    apply Vec3R.ext3 <;> simp only [Vec3R.add, Vec3R.smul] <;> ring
  obtain ⟨⟨hb1, hb2⟩, ⟨hb3, hb4⟩, ⟨hb5, hb6⟩⟩ :=
    ray_point_in_walls p0 hg hd (s - 3 / 10 * w) h0 h1
  unfold wallAdjust
  rw [hxN]
  apply Vec3R.ext3 <;> dsimp only <;>
    rw [wallAxis_eq_self (by push_neg; linarith) (by push_neg; linarith)]

/-- One step of the sphere dynamics from a state on the ray from the center
through the rest position, outside the radius: the containment kick raises the
inward speed from w to w + 0.03 * (r - 25) and the move brings the radius from
r to r - 0.1 * (w + 0.03 * (r - 25)); the clamp and the wall springs do not
fire. -/
theorem sphereStep_ray (p0 : Vec3R) (hg : goodStart p0)
    (hd25 : 25 < startDist p0) (hd80 : startDist p0 ≤ 80)
    (r w : ℝ) (hr : 25 < r) (hrd : r ≤ startDist p0)
    (hw0 : 0 ≤ w) (hwe : w ≤ startDist p0 - 25) :
    sphereStep (1 / 10)
        (sphereCenterR.add (Vec3R.smul r (unitDir p0)), Vec3R.smul (-w) (unitDir p0)) =
      (sphereCenterR.add
         (Vec3R.smul (r - 1 / 10 * (w + 3 / 100 * (r - 25))) (unitDir p0)),
       Vec3R.smul (-(w + 3 / 100 * (r - 25))) (unitDir p0)) := by
  have hd0 : 0 < startDist p0 := by linarith
  have he55 : startDist p0 - 25 ≤ 55 := by linarith
  have hw'0 : 0 ≤ w + 3 / 100 * (r - 25) := by linarith
  have hw'hi : w + 3 / 100 * (r - 25) ≤ 103 / 100 * (startDist p0 - 25) := by linarith
  have hr'0 : 0 ≤ r - 1 / 10 * (w + 3 / 100 * (r - 25)) := by linarith
  have hr'd : r - 1 / 10 * (w + 3 / 100 * (r - 25)) ≤ startDist p0 := by linarith
  have hxn0 : 0 ≤ r - 1 / 10 * (w + 3 / 100 * (r - 25)) - 3 / 10 * (w + 3 / 100 * (r - 25)) := by
    linarith
  have hxnd : r - 1 / 10 * (w + 3 / 100 * (r - 25)) - 3 / 10 * (w + 3 / 100 * (r - 25)) ≤
      startDist p0 := by linarith
  have hkick := kick_on_ray p0 hd0 r w hr
  have hmove : (sphereCenterR.add (Vec3R.smul r (unitDir p0))).add
      (Vec3R.smul (1 / 10) (Vec3R.smul (-(w + 3 / 100 * (r - 25))) (unitDir p0))) =
      sphereCenterR.add
        (Vec3R.smul (r - 1 / 10 * (w + 3 / 100 * (r - 25))) (unitDir p0)) := by
    apply Vec3R.ext3 <;> simp only [Vec3R.add, Vec3R.smul] <;> ring
  unfold sphereStep
  rw [hkick, hmove, clamp3_ray p0 hg hd0 _ hr'0 hr'd,
    wallAdjust_ray p0 hg hd0 _ _ hxn0 hxnd]

/-- While the particle has stayed outside the radius, its state lies on the
ray from the sphere center through the rest position, with inward speed w and
radius r obeying the energy bound w^2 <= 0.6 * e0 * (d0 - r) and the radius
bounds 25 - 0.103 * e0 <= r <= d0, where d0 is the starting distance and
e0 = d0 - 25 the starting excess. -/
theorem sphereTraj_invariant (p0 : Vec3R) (hg : goodStart p0)
    (hd25 : 25 < startDist p0) (hd80 : startDist p0 ≤ 80) :
    ∀ n, (∀ k, k < n → 25 < distAt (1 / 10) p0 k) →
      ∃ r w : ℝ,
        sphereTraj (1 / 10) p0 n =
          (sphereCenterR.add (Vec3R.smul r (unitDir p0)), Vec3R.smul (-w) (unitDir p0)) ∧
        0 ≤ w ∧
        w ^ 2 ≤ 3 / 5 * (startDist p0 - 25) * (startDist p0 - r) ∧
        25 - 103 / 1000 * (startDist p0 - 25) ≤ r ∧ r ≤ startDist p0 := by
  have hd0 : 0 < startDist p0 := by linarith
  intro n
  induction n with
  | zero =>
    intro _
    refine ⟨startDist p0, 0, ?_, le_refl 0, ?_, ?_, le_refl _⟩
    · have hp : sphereCenterR.add (Vec3R.smul (startDist p0) (unitDir p0)) = p0 := by
        apply Vec3R.ext3 <;>
          simp only [Vec3R.add, Vec3R.smul, Vec3R.sub, unitDir, sphereCenterR] <;>
          field_simp
      have hv : Vec3R.smul (-(0 : ℝ)) (unitDir p0) = ⟨0, 0, 0⟩ := by
        apply Vec3R.ext3 <;> simp [Vec3R.smul]
      rw [hp, hv]
      rfl
    · norm_num
    · nlinarith
  | succ n ih =>
    intro hout
    obtain ⟨r, w, heq, hw0, hw2, hrlo, hrhi⟩ := ih fun k hk => hout k (by omega)
    have he0pos : 0 < startDist p0 - 25 := by linarith
    have he55 : startDist p0 - 25 ≤ 55 := by linarith
    have hrpos : 0 ≤ r := by nlinarith
    have hdistn : distAt (1 / 10) p0 n = r := by
      unfold distAt
      rw [heq]
      exact dist_ray p0 hd0 r hrpos
    have hr25 : 25 < r := by
      have := hout n (by omega)
      rw [hdistn] at this
      exact this
    have hwsq : w ^ 2 ≤ (startDist p0 - 25) ^ 2 := by nlinarith
    have hwe : w ≤ startDist p0 - 25 :=
      le_of_pow_le_pow_left two_ne_zero he0pos.le hwsq
    have hstep := sphereStep_ray p0 hg hd25 hd80 r w hr25 hrhi hw0 hwe
    refine ⟨r - 1 / 10 * (w + 3 / 100 * (r - 25)), w + 3 / 100 * (r - 25), ?_, ?_, ?_, ?_, ?_⟩
    · show sphereStep (1 / 10) (sphereTraj (1 / 10) p0 n) = _
      rw [heq, hstep]
    · linarith
    · nlinarith [mul_nonneg hw0 (sub_nonneg.2 (by linarith : r - 25 ≤ startDist p0 - 25)),
        mul_nonneg (by linarith : (0 : ℝ) ≤ r - 25)
          (by linarith : (0 : ℝ) ≤ 2 * (startDist p0 - 25) - (r - 25))]
    · linarith
    · linarith

/-- If the particle never came within the radius, the inward speed stays at
least 0.03 * e0 from step 1 on and the radius drops by at least 0.003 * e0
every step - which cannot go on forever. -/
theorem sphereTraj_linear_decrease (p0 : Vec3R) (hg : goodStart p0)
    (hd25 : 25 < startDist p0) (hd80 : startDist p0 ≤ 80)
    (hall : ∀ k, 25 < distAt (1 / 10) p0 k) :
    ∀ n, ∃ r w : ℝ,
      sphereTraj (1 / 10) p0 n =
        (sphereCenterR.add (Vec3R.smul r (unitDir p0)), Vec3R.smul (-w) (unitDir p0)) ∧
      0 ≤ w ∧
      w ^ 2 ≤ 3 / 5 * (startDist p0 - 25) * (startDist p0 - r) ∧
      25 - 103 / 1000 * (startDist p0 - 25) ≤ r ∧ r ≤ startDist p0 ∧
      ((n = 0 ∧ r = startDist p0 ∧ w = 0) ∨ 3 / 100 * (startDist p0 - 25) ≤ w) ∧
      r ≤ startDist p0 - n * (3 / 1000) * (startDist p0 - 25) := by
  have hd0 : 0 < startDist p0 := by linarith
  intro n
  induction n with
  | zero =>
    refine ⟨startDist p0, 0, ?_, le_refl 0, ?_, ?_, le_refl _, Or.inl ⟨rfl, rfl, rfl⟩, ?_⟩
    · have hp : sphereCenterR.add (Vec3R.smul (startDist p0) (unitDir p0)) = p0 := by
        apply Vec3R.ext3 <;>
          simp only [Vec3R.add, Vec3R.smul, Vec3R.sub, unitDir, sphereCenterR] <;>
          field_simp
      have hv : Vec3R.smul (-(0 : ℝ)) (unitDir p0) = ⟨0, 0, 0⟩ := by
        apply Vec3R.ext3 <;> simp [Vec3R.smul]
      rw [hp, hv]
      rfl
    · norm_num
    · nlinarith
    · push_cast
      linarith
  | succ n ih =>
    obtain ⟨r, w, heq, hw0, hw2, hrlo, hrhi, hkickw, hlin⟩ := ih
    have he0pos : 0 < startDist p0 - 25 := by linarith
    have he55 : startDist p0 - 25 ≤ 55 := by linarith
    have hrpos : 0 ≤ r := by nlinarith
    have hdistn : distAt (1 / 10) p0 n = r := by
      unfold distAt
      rw [heq]
      exact dist_ray p0 hd0 r hrpos
    have hr25 : 25 < r := by
      have := hall n
      rw [hdistn] at this
      exact this
    have hwsq : w ^ 2 ≤ (startDist p0 - 25) ^ 2 := by nlinarith
    have hwe : w ≤ startDist p0 - 25 :=
      le_of_pow_le_pow_left two_ne_zero he0pos.le hwsq
    have hstep := sphereStep_ray p0 hg hd25 hd80 r w hr25 hrhi hw0 hwe
    have hw'kick : 3 / 100 * (startDist p0 - 25) ≤ w + 3 / 100 * (r - 25) := by
      rcases hkickw with ⟨-, hr0, hw0'⟩ | hge
      · rw [hr0, hw0']
        linarith
      · linarith
    refine ⟨r - 1 / 10 * (w + 3 / 100 * (r - 25)), w + 3 / 100 * (r - 25), ?_, ?_, ?_, ?_, ?_,
      Or.inr hw'kick, ?_⟩
    · show sphereStep (1 / 10) (sphereTraj (1 / 10) p0 n) = _
      rw [heq, hstep]
    · linarith
    · nlinarith [mul_nonneg hw0 (sub_nonneg.2 (by linarith : r - 25 ≤ startDist p0 - 25)),
        mul_nonneg (by linarith : (0 : ℝ) ≤ r - 25)
          (by linarith : (0 : ℝ) ≤ 2 * (startDist p0 - 25) - (r - 25))]
    · linarith
    · linarith
    · push_cast
      push_cast at hlin
      linarith

/-- C7: with sphere-containment mode active, dt fixed at 0.1 and no competing
forces (ambient gravity, noise, grid velocity and cursor force absent), a
particle placed at rest outside the containment radius, within the domain
wall margins and at starting distance at most 80, has its distance to the
sphere center strictly decreasing on every successive step while it remains
outside the radius, and it comes within the radius after finitely many
steps. -/
theorem c7_sphere_containment_convergence (p0 : Vec3R) (hg : goodStart p0)
    (hd25 : sphereRadiusR < startDist p0) (hd80 : startDist p0 ≤ 80) :
    (∀ n, (∀ k, k ≤ n → sphereRadiusR < distAt (1 / 10) p0 k) →
       distAt (1 / 10) p0 (n + 1) < distAt (1 / 10) p0 n) ∧
    ∃ N, distAt (1 / 10) p0 N ≤ sphereRadiusR := by
  have hd25' : (25 : ℝ) < startDist p0 := hd25
  have hd0 : 0 < startDist p0 := by linarith
  have he0pos : 0 < startDist p0 - 25 := by linarith
  have he55 : startDist p0 - 25 ≤ 55 := by linarith
  constructor
  · intro n hout
    obtain ⟨r, w, heq, hw0, hw2, hrlo, hrhi⟩ :=
      sphereTraj_invariant p0 hg hd25' hd80 n (fun k hk => hout k (by omega))
    have hrpos : 0 ≤ r := by nlinarith
    have hdistn : distAt (1 / 10) p0 n = r := by
      unfold distAt
      rw [heq]
      exact dist_ray p0 hd0 r hrpos
    have hr25 : 25 < r := by
      have := hout n (le_refl n)
      rw [hdistn] at this
      exact this
    have hwsq : w ^ 2 ≤ (startDist p0 - 25) ^ 2 := by nlinarith
    have hwe : w ≤ startDist p0 - 25 :=
      le_of_pow_le_pow_left two_ne_zero he0pos.le hwsq
    have hstep := sphereStep_ray p0 hg hd25' hd80 r w hr25 hrhi hw0 hwe
    have hr'pos : 0 ≤ r - 1 / 10 * (w + 3 / 100 * (r - 25)) := by linarith
    have hdistn1 : distAt (1 / 10) p0 (n + 1) = r - 1 / 10 * (w + 3 / 100 * (r - 25)) := by
      unfold distAt
      rw [show sphereTraj (1 / 10) p0 (n + 1) =
          sphereStep (1 / 10) (sphereTraj (1 / 10) p0 n) from rfl, heq, hstep]
      exact dist_ray p0 hd0 _ hr'pos
    rw [hdistn, hdistn1]
    linarith
  · by_contra hno
    push_neg at hno
    have hall : ∀ k, 25 < distAt (1 / 10) p0 k := fun k => hno k
    obtain ⟨r, w, -, -, -, hrlo, -, -, hlin⟩ :=
      sphereTraj_linear_decrease p0 hg hd25' hd80 hall 400
    push_cast at hlin
    linarith

theorem c7_sphere_containment_convergence_witness :
    goodStart ⟨94, 32, 32⟩ ∧ sphereRadiusR < startDist ⟨94, 32, 32⟩ ∧
    startDist ⟨94, 32, 32⟩ ≤ 80 ∧
    ((∀ n, (∀ k, k ≤ n → sphereRadiusR < distAt (1 / 10) ⟨94, 32, 32⟩ k) →
        distAt (1 / 10) ⟨94, 32, 32⟩ (n + 1) < distAt (1 / 10) ⟨94, 32, 32⟩ n) ∧
     ∃ N, distAt (1 / 10) ⟨94, 32, 32⟩ N ≤ sphereRadiusR) := by
  have hsd : startDist ⟨94, 32, 32⟩ = 30 := by
    unfold startDist norm3 Vec3R.sub sphereCenterR
    norm_num
    rw [show (900 : ℝ) = 30 ^ 2 by norm_num, Real.sqrt_sq (by norm_num : (0 : ℝ) ≤ 30)]
  have hg : goodStart ⟨94, 32, 32⟩ := by
    unfold goodStart
    norm_num
  have h1 : sphereRadiusR < startDist ⟨94, 32, 32⟩ := by
    rw [hsd]
    unfold sphereRadiusR
    norm_num
  have h2 : startDist ⟨94, 32, 32⟩ ≤ 80 := by
    rw [hsd]
    norm_num
  exact ⟨hg, h1, h2, c7_sphere_containment_convergence ⟨94, 32, 32⟩ hg h1 h2⟩

end Flow
